import Mathlib

/-!
Verification development for the GRANDPA justification checker of
`modules/substrate/src/justification.rs`.

The data model and the operations are translated from the Rust source.
External collaborators (the SCALE codec, `finality_grandpa::validate_commit`,
`sp_finality_grandpa::check_message_signature_with_buffer`) are parameters of
the model, since they live in external crates.  The `loop` inside
`<AncestryChain as Chain>::ancestry` is modelled with an explicit fuel
counter: a `none` result means the loop has not finished within the given
number of iterations, so divergence of the Rust loop is expressed as the
result being `none` for every fuel.
-/

/-- A chain header: its own hash, its declared parent hash, and its number.
Hashes and numbers are abstracted as natural numbers. -/
structure Header where
  hash : Nat
  parent_hash : Nat
  number : Nat
deriving DecidableEq

/-- A GRANDPA precommit vote: the block one authority claims finalizable. -/
structure Precommit where
  target_hash : Nat
  target_number : Nat
deriving DecidableEq

/-- A precommit together with its signature and the authority id. -/
structure SignedPrecommit where
  precommit : Precommit
  signature : Nat
  id : Nat
deriving DecidableEq

/-- A commit: the claimed finalized target plus the signed votes behind it. -/
structure Commit where
  target_hash : Nat
  target_number : Nat
  precommits : List SignedPrecommit
deriving DecidableEq

/-- A decoded GRANDPA justification (justification.rs, `GrandpaJustification`). -/
structure GrandpaJustification where
  round : Nat
  commit : Commit
  votes_ancestries : List Header
deriving DecidableEq

/-- Justification verification error (justification.rs, `enum Error`). -/
inductive Error where
  | JustificationDecode
  | InvalidJustificationTarget
  | InvalidJustificationCommit
  | InvalidAuthoritySignature
  | InvalidPrecommitAncestryProof
  | InvalidPrecommitAncestries
deriving DecidableEq

instance {e a : Type} [DecidableEq e] [DecidableEq a] : DecidableEq (Except e a) := fun x y =>
  match x, y with
  | Except.ok u, Except.ok v =>
    if h : u = v then isTrue (by rw [h]) else isFalse (fun hc => h (Except.ok.inj hc))
  | Except.error u, Except.error v =>
    if h : u = v then isTrue (by rw [h]) else isFalse (fun hc => h (Except.error.inj hc))
  | Except.ok _, Except.error _ => isFalse (fun hc => Except.noConfusion hc)
  | Except.error _, Except.ok _ => isFalse (fun hc => Except.noConfusion hc)

/-- The voter set is opaque to this module: it is only handed over to the
external commit validator.  Modelled as a list of (authority id, weight)
pairs. -/
abbrev VoterSet := List (Nat × Nat)

/-- Lookup in a hash-to-parent map represented as the list of insertions in
order.  `BTreeMap` collect semantics: a later binding of the same key
overwrites an earlier one, so the recursion prefers the tail. -/
def mapLookup : List (Nat × Nat) → Nat → Option Nat
  | [], _ => none
  | p :: rest, k =>
    match mapLookup rest k with
    | some v => some v
    | none => if p.1 = k then some p.2 else none

/-- `AncestryChain`: the hash-to-parent map built from the supplied headers
(justification.rs, `struct AncestryChain`). -/
structure AncestryChain where
  ancestry : List (Nat × Nat)
deriving DecidableEq

/-- `AncestryChain::new`: map each header's own hash to its declared parent
hash, in list order. -/
def AncestryChain.new (headers : List Header) : AncestryChain :=
  ⟨headers.map (fun h => (h.hash, h.parent_hash))⟩

/-- One-for-one model of the `loop` inside `<AncestryChain as Chain>::ancestry`.
`fuel` bounds the number of iterations executed; `none` means the loop has not
finished within `fuel` iterations.  On each iteration: stop successfully when
the current hash equals `base`; otherwise follow the map, pushing the parent
onto the route, or fail with the not-descendant error when the current hash
has no entry. -/
def ancestryLoop (m : List (Nat × Nat)) (base : Nat) :
    Nat → Nat → List Nat → Option (Except Unit (List Nat))
  | 0, _, _ => none
  | fuel + 1, current_hash, route =>
    if current_hash = base then some (Except.ok route)
    else
      match mapLookup m current_hash with
      | some parent_hash => ancestryLoop m base fuel parent_hash (route ++ [parent_hash])
      | none => some (Except.error ())

/-- `Chain::ancestry` for `AncestryChain`: run the loop from `block` with an
empty route, then `route.pop()` (drop the trailing `base` occurrence) on the
success path. -/
def Chain.ancestry (c : AncestryChain) (base block : Nat) (fuel : Nat) :
    Option (Except Unit (List Nat)) :=
  (ancestryLoop c.ancestry base fuel block []).map (fun r => r.map List.dropLast)

/-- The per-vote loop of `verify_justification`: for each signed precommit in
list order, first check its signature (`chk`), short-circuiting with
`InvalidAuthoritySignature`; skip votes whose target is the commit target;
otherwise resolve the vote's ancestry route and accumulate the visited
hashes, short-circuiting with `InvalidPrecommitAncestryProof` when the route
does not resolve. -/
def processPrecommits (chk : Precommit → Nat → Nat → Nat → Nat → Bool)
    (chain : AncestryChain) (commit_target : Nat) (round setId fuel : Nat) :
    List SignedPrecommit → Finset Nat → Option (Except Error (Finset Nat))
  | [], visited => some (Except.ok visited)
  | signed :: rest, visited =>
    if chk signed.precommit signed.id signed.signature round setId then
      if commit_target = signed.precommit.target_hash then
        processPrecommits chk chain commit_target round setId fuel rest visited
      else
        match Chain.ancestry chain commit_target signed.precommit.target_hash fuel with
        | some (Except.ok route) =>
          processPrecommits chk chain commit_target round setId fuel rest
            (insert signed.precommit.target_hash visited ∪ route.toFinset)
        | some (Except.error _) => some (Except.error Error.InvalidPrecommitAncestryProof)
        | none => none
    else some (Except.error Error.InvalidAuthoritySignature)

/-- `verify_justification` after the decode step: target check, commit
validation, the per-vote loop, and the final comparison of the visited hashes
against the set of hashes of the supplied ancestry headers. -/
def verifyDecoded (vc : Commit → VoterSet → AncestryChain → Bool)
    (chk : Precommit → Nat → Nat → Nat → Nat → Bool)
    (ft : Nat × Nat) (setId : Nat) (voters : VoterSet)
    (fuel : Nat) (j : GrandpaJustification) : Option (Except Error Unit) :=
  if (j.commit.target_hash, j.commit.target_number) ≠ ft then
    some (Except.error Error.InvalidJustificationTarget)
  else
    let chain := AncestryChain.new j.votes_ancestries
    if vc j.commit voters chain then
      match processPrecommits chk chain j.commit.target_hash j.round setId fuel
          j.commit.precommits ∅ with
      | some (Except.ok visited_hashes) =>
        if visited_hashes ≠ (j.votes_ancestries.map Header.hash).toFinset then
          some (Except.error Error.InvalidPrecommitAncestries)
        else some (Except.ok ())
      | some (Except.error e) => some (Except.error e)
      | none => none
    else some (Except.error Error.InvalidJustificationCommit)

/-- `verify_justification`, with the external collaborators as parameters:
`decode` is the SCALE codec run on the raw bytes, `vc` is
`finality_grandpa::validate_commit` (`true` meaning it returned `Ok` with a
ghost), `chk` is `check_message_signature_with_buffer` applied to the
precommit message, authority id, signature, round and set id.  `fuel` bounds
the iterations of each ancestry loop; a `none` result means verification has
not finished within that bound. -/
def verify_justification (decode : List Nat → Option GrandpaJustification)
    (vc : Commit → VoterSet → AncestryChain → Bool)
    (chk : Precommit → Nat → Nat → Nat → Nat → Bool)
    (ft : Nat × Nat) (setId : Nat) (voters : VoterSet)
    (raw : List Nat) (fuel : Nat) : Option (Except Error Unit) :=
  match decode raw with
  | none => some (Except.error Error.JustificationDecode)
  | some j => verifyDecoded vc chk ft setId voters fuel j

/-- `verify_justification` with the decoding convention of the call at line
59 made explicit: SCALE `Decode::decode` applied to `&mut &raw[..]` reads
one value from the front of the slice and leaves any remaining bytes
unconsumed, and the code never checks that the input was fully consumed (it
uses `Decode::decode`, not the all-consuming `DecodeAll` variant).  So
`pdecode` returns the decoded justification together with the leftover
bytes, and the leftover is discarded. -/
def verify_justification_prefix
    (pdecode : List Nat → Option (GrandpaJustification × List Nat))
    (vc : Commit → VoterSet → AncestryChain → Bool)
    (chk : Precommit → Nat → Nat → Nat → Nat → Bool)
    (ft : Nat × Nat) (setId : Nat) (voters : VoterSet)
    (raw : List Nat) (fuel : Nat) : Option (Except Error Unit) :=
  match pdecode raw with
  | none => some (Except.error Error.JustificationDecode)
  | some jl => verifyDecoded vc chk ft setId voters fuel jl.1

/-- Modelled from the spec: the external commit validator
(`finality_grandpa::validate_commit`, spec section 4.4) consumes the ancestry
index only through the capability interface of section 4.3, whose two
operations — ancestors-between and best-candidate-containing — are passed to
it explicitly here.  The second operation is a parameter standing for
whatever that capability would compute, since in the source it only panics
(`unreachable!("is only used during voting; qed")`). -/
def verifyWithChainCap (decode : List Nat → Option GrandpaJustification)
    (vc : Commit → VoterSet → (Nat → Nat → Nat → Option (Except Unit (List Nat)))
      → (Nat → Option (Nat × Nat)) → Bool)
    (bcc : Nat → Option (Nat × Nat))
    (chk : Precommit → Nat → Nat → Nat → Nat → Bool)
    (ft : Nat × Nat) (setId : Nat) (voters : VoterSet)
    (raw : List Nat) (fuel : Nat) : Option (Except Error Unit) :=
  match decode raw with
  | none => some (Except.error Error.JustificationDecode)
  | some j =>
    if (j.commit.target_hash, j.commit.target_number) ≠ ft then
      some (Except.error Error.InvalidJustificationTarget)
    else
      let chain := AncestryChain.new j.votes_ancestries
      if vc j.commit voters (fun base block f => Chain.ancestry chain base block f) bcc then
        match processPrecommits chk chain j.commit.target_hash j.round setId fuel
            j.commit.precommits ∅ with
        | some (Except.ok visited_hashes) =>
          if visited_hashes ≠ (j.votes_ancestries.map Header.hash).toFinset then
            some (Except.error Error.InvalidPrecommitAncestries)
          else some (Except.ok ())
        | some (Except.error e) => some (Except.error e)
        | none => none
      else some (Except.error Error.InvalidJustificationCommit)

/-- Specification-side route characterization (claim C1): `route` is exactly
the list of hashes strictly between `base` (exclusive) and `block`
(exclusive) obtained by repeatedly following the hash-to-parent map starting
at `block`, ordered nearest-to-`block` first. -/
def isStrictRoute (m : List (Nat × Nat)) (base : Nat) : Nat → List Nat → Prop
  | block, [] => block = base ∨ (block ≠ base ∧ mapLookup m block = some base)
  | block, p :: rest => block ≠ base ∧ mapLookup m block = some p ∧ p ≠ base ∧
      isStrictRoute m base p rest

/-- The raw contents of the loop accumulator on the success path: the parent
of each visited hash in order, ending with `base` itself unless
`block = base`. -/
def rawRoute (m : List (Nat × Nat)) (base : Nat) : Nat → List Nat → Prop
  | block, [] => block = base
  | block, p :: rest => block ≠ base ∧ mapLookup m block = some p ∧ rawRoute m base p rest

/-- `n`-fold iteration of the hash-to-parent map; `none` when an intermediate
hash has no entry. -/
def parentIter (m : List (Nat × Nat)) : Nat → Nat → Option Nat
  | 0, h => some h
  | n + 1, h =>
    match mapLookup m h with
    | some p => parentIter m n p
    | none => none

/-- Following parents from `block`, the walk hits a hash that has no entry in
the map while never having reached `base`. -/
def breaksBeforeBase (m : List (Nat × Nat)) (base block : Nat) : Prop :=
  ∃ n, (∀ i h, i ≤ n → parentIter m i block = some h → h ≠ base) ∧
    ∃ h, parentIter m n block = some h ∧ mapLookup m h = none

/-- Following parents from `block` eventually reaches `base` or a hash that
has no entry in the map. -/
def reachesEnd (m : List (Nat × Nat)) (base block : Nat) : Prop :=
  ∃ n h, parentIter m n block = some h ∧ (h = base ∨ mapLookup m h = none)

/-- The ancestry operation finishes within some number of loop iterations. -/
def ancestryTerminates (c : AncestryChain) (base block : Nat) : Prop :=
  ∃ fuel r, Chain.ancestry c base block fuel = some r

/-- Specification-side used-hash set (claim C2): for each vote whose target
differs from the commit's target, the vote's own target hash together with
every hash on its resolved ancestry route; votes at the commit's target
contribute nothing. -/
def specUsedHashes (commit_target : Nat) (routes : SignedPrecommit → List Nat) :
    List SignedPrecommit → Finset Nat
  | [] => ∅
  | s :: rest =>
    if commit_target = s.precommit.target_hash then
      specUsedHashes commit_target routes rest
    else
      insert s.precommit.target_hash (routes s).toFinset ∪
        specUsedHashes commit_target routes rest

/-! ### Termination of the ancestry operation (claim C3) -/

theorem cycle_loop_none : ∀ fuel current acc, current = 1 ∨ current = 2 →
    ancestryLoop [(1, 2), (2, 1)] 0 fuel current acc = none := by
  intro fuel
  induction fuel with
  | zero => intro current acc h; rfl
  | succ n ih =>
    intro current acc h
    rcases h with h | h <;> subst h
    · show ancestryLoop [(1, 2), (2, 1)] 0 n 2 (acc ++ [2]) = none
      exact ih 2 (acc ++ [2]) (Or.inr rfl)
    · show ancestryLoop [(1, 2), (2, 1)] 0 n 1 (acc ++ [1]) = none
      exact ih 1 (acc ++ [1]) (Or.inl rfl)

/-- Claim C3 counterexample: headers forming a parent-hash cycle (1 maps to
2, 2 maps to 1).  The ancestry operation from block 1 towards base 0 never
finishes whatever the number of loop iterations, and a full
`verify_justification` call on a justification embedding these headers —
whose target and commit checks pass, whose signatures all check, and whose
single vote targets hash 1 inside the cycle — likewise never finishes. -/
theorem ancestry_cycle_not_terminating :
    ¬ ancestryTerminates ⟨[(1, 2), (2, 1)]⟩ 0 1 ∧
    ∀ fuel, verify_justification
      (fun _ => some ⟨0, ⟨0, 0, [⟨⟨1, 1⟩, 1, 0⟩]⟩, [⟨1, 2, 0⟩, ⟨2, 1, 0⟩]⟩)
      (fun _ _ _ => true) (fun _ _ _ _ _ => true) (0, 0) 0 [] [] fuel = none := by
  constructor
  · rintro ⟨fuel, r, hr⟩
    have h := cycle_loop_none fuel 1 [] (Or.inl rfl)
    unfold Chain.ancestry at hr
    rw [show (⟨[(1, 2), (2, 1)]⟩ : AncestryChain).ancestry = [(1, 2), (2, 1)] from rfl, h] at hr
    exact Option.noConfusion hr
  · intro fuel
    have hanc : Chain.ancestry (AncestryChain.new [⟨1, 2, 0⟩, ⟨2, 1, 0⟩]) 0 1 fuel = none := by
      unfold Chain.ancestry
      rw [show (AncestryChain.new [⟨1, 2, 0⟩, ⟨2, 1, 0⟩]).ancestry = [(1, 2), (2, 1)] from rfl,
        cycle_loop_none fuel 1 [] (Or.inl rfl)]
      rfl
    have hpp : processPrecommits (fun _ _ _ _ _ => true)
        (AncestryChain.new [⟨1, 2, 0⟩, ⟨2, 1, 0⟩]) 0 0 0 fuel [⟨⟨1, 1⟩, 1, 0⟩] ∅ = none := by
      simp [processPrecommits, hanc]
    unfold verify_justification
    show verifyDecoded (fun _ _ _ => true) (fun _ _ _ _ _ => true) (0, 0) 0 [] fuel
      ⟨0, ⟨0, 0, [⟨⟨1, 1⟩, 1, 0⟩]⟩, [⟨1, 2, 0⟩, ⟨2, 1, 0⟩]⟩ = none
    simp [verifyDecoded, hpp]

theorem loop_some_reaches (m : List (Nat × Nat)) (base : Nat) : ∀ fuel current acc r,
    ancestryLoop m base fuel current acc = some r → reachesEnd m base current := by
  intro fuel
  induction fuel with
  | zero => intro current acc r h; exact Option.noConfusion h
  | succ n ih =>
    intro current acc r h
    by_cases hb : current = base
    · exact ⟨0, current, rfl, Or.inl hb⟩
    · rcases hl : mapLookup m current with _ | p
      · exact ⟨0, current, rfl, Or.inr hl⟩
      · simp only [ancestryLoop, if_neg hb, hl] at h
        obtain ⟨k, q, hit, hend⟩ := ih p (acc ++ [p]) r h
        refine ⟨k + 1, q, ?_, hend⟩
        simp only [parentIter, hl]
        exact hit

theorem reaches_loop_some (m : List (Nat × Nat)) (base : Nat) : ∀ n block,
    (∃ h, parentIter m n block = some h ∧ (h = base ∨ mapLookup m h = none)) →
    ∀ acc, ∃ r, ancestryLoop m base (n + 1) block acc = some r := by
  intro n
  induction n with
  | zero =>
    intro block hblock acc
    obtain ⟨h, hit, hend⟩ := hblock
    have hb : block = h := Option.some.inj hit
    subst hb
    rcases hend with he | he
    · exact ⟨Except.ok acc, by simp [ancestryLoop, he]⟩
    · by_cases hbb : block = base
      · exact ⟨Except.ok acc, by simp [ancestryLoop, hbb]⟩
      · exact ⟨Except.error (), by simp [ancestryLoop, hbb, he]⟩
  | succ k ih =>
    intro block hblock acc
    obtain ⟨h, hit, hend⟩ := hblock
    by_cases hb : block = base
    · exact ⟨Except.ok acc, by simp [ancestryLoop, hb]⟩
    · rcases hl : mapLookup m block with _ | p
      · exact ⟨Except.error (), by simp [ancestryLoop, hb, hl]⟩
      · have hit2 : parentIter m k p = some h := by
          simp only [parentIter, hl] at hit
          exact hit
        obtain ⟨r, hr⟩ := ih p ⟨h, hit2, hend⟩ (acc ++ [p])
        refine ⟨r, ?_⟩
        simp only [ancestryLoop, if_neg hb, hl]
        exact hr

/-- Claim C3, amended: the ancestry operation terminates exactly when
repeatedly following the hash-to-parent map from `block` reaches `base` or a
hash with no entry in the index; in particular, on an index whose headers
form a parent-hash cycle reachable from `block` without passing `base`, the
loop never finishes. -/
theorem ancestry_terminates_iff (c : AncestryChain) (base block : Nat) :
    ancestryTerminates c base block ↔ reachesEnd c.ancestry base block := by
  constructor
  · rintro ⟨fuel, r, hr⟩
    rcases hopt : ancestryLoop c.ancestry base fuel block [] with _ | r2
    · unfold Chain.ancestry at hr
      rw [hopt] at hr
      exact Option.noConfusion hr
    · exact loop_some_reaches c.ancestry base fuel block [] r2 hopt
  · rintro ⟨n, h, hit, hend⟩
    obtain ⟨r, hr⟩ := reaches_loop_some c.ancestry base n block ⟨h, hit, hend⟩ []
    refine ⟨n + 1, r.map List.dropLast, ?_⟩
    unfold Chain.ancestry
    rw [hr]
    rfl

theorem ancestry_terminates_iff_witness : ancestryTerminates ⟨[(1, 0)]⟩ 0 1 :=
  (ancestry_terminates_iff ⟨[(1, 0)]⟩ 0 1).mpr ⟨1, 0, rfl, Or.inl rfl⟩

/-! ### Construction of the ancestry index (claim C8) -/

theorem mapLookup_append_some (b : List (Nat × Nat)) (k : Nat) (v : Nat) :
    ∀ a, mapLookup b k = some v → mapLookup (a ++ b) k = some v := by
  intro a
  induction a with
  | nil => intro h; exact h
  | cons p rest ih =>
    intro h
    show mapLookup (p :: (rest ++ b)) k = some v
    simp only [mapLookup]
    rw [ih h]

theorem mapLookup_none_of_all_ne (k : Nat) :
    ∀ m : List (Nat × Nat), (∀ p ∈ m, p.1 ≠ k) → mapLookup m k = none := by
  intro m
  induction m with
  | nil => intro h; rfl
  | cons p rest ih =>
    intro h
    simp only [mapLookup, ih (fun q hq => h q (List.mem_cons_of_mem p hq))]
    rw [if_neg (h p (List.mem_cons_self p rest))]

/-- Claim C8: building the ancestry index never rejects its input — every
header contributes one entry, so the map list is as long as the header
list — and when two headers share the same hash, looking that hash up yields
the parent hash declared by the later of the two headers in list order. -/
theorem ancestry_new_last_wins (l1 l2 l3 : List Header) (h1 h2 : Header) (k : Nat)
    (e1 : h1.hash = k) (e2 : h2.hash = k) (hlast : ∀ h ∈ l3, h.hash ≠ k) :
    (AncestryChain.new (l1 ++ h1 :: l2 ++ h2 :: l3)).ancestry.length
        = (l1 ++ h1 :: l2 ++ h2 :: l3).length
  ∧ mapLookup (AncestryChain.new (l1 ++ h1 :: l2 ++ h2 :: l3)).ancestry k
        = some h2.parent_hash := by
  constructor
  · simp [AncestryChain.new]
  · have hnone : mapLookup (l3.map (fun h => (h.hash, h.parent_hash))) k = none := by
      apply mapLookup_none_of_all_ne
      intro p hp
      obtain ⟨h, hh, rfl⟩ := List.mem_map.mp hp
      exact hlast h hh
    have htail : mapLookup
        ((h2.hash, h2.parent_hash) :: l3.map (fun h => (h.hash, h.parent_hash))) k
        = some h2.parent_hash := by
      simp [mapLookup, hnone, e2]
    have hmap : (AncestryChain.new (l1 ++ h1 :: l2 ++ h2 :: l3)).ancestry
        = l1.map (fun h => (h.hash, h.parent_hash)) ++
          ((h1.hash, h1.parent_hash) ::
            (l2.map (fun h => (h.hash, h.parent_hash)) ++
              ((h2.hash, h2.parent_hash) :: l3.map (fun h => (h.hash, h.parent_hash))))) := by
      simp [AncestryChain.new]
    rw [hmap]
    apply mapLookup_append_some
    have hmid := mapLookup_append_some _ k _ (l2.map (fun h => (h.hash, h.parent_hash))) htail
    simp only [mapLookup, hmid]

theorem ancestry_new_last_wins_witness :
    mapLookup (AncestryChain.new [⟨5, 100, 0⟩, ⟨5, 200, 0⟩]).ancestry 5 = some 200 :=
  (ancestry_new_last_wins [] [] [] ⟨5, 100, 0⟩ ⟨5, 200, 0⟩ 5 rfl rfl
    (fun h hh => absurd hh (List.not_mem_nil h))).2

/-! ### Route correctness of the ancestry operation (claim C1) -/

theorem loop_ok_rawRoute (m : List (Nat × Nat)) (base : Nat) : ∀ fuel current acc r,
    ancestryLoop m base fuel current acc = some (Except.ok r) →
    ∃ tail, r = acc ++ tail ∧ rawRoute m base current tail := by
  intro fuel
  induction fuel with
  | zero => intro current acc r h; exact Option.noConfusion h
  | succ n ih =>
    intro current acc r h
    by_cases hb : current = base
    · simp only [ancestryLoop, if_pos hb, Option.some.injEq, Except.ok.injEq] at h
      refine ⟨[], ?_, hb⟩
      rw [List.append_nil]
      exact h.symm
    · rcases hl : mapLookup m current with _ | p
      · simp [ancestryLoop, if_neg hb, hl] at h
      · simp only [ancestryLoop, if_neg hb, hl] at h
        obtain ⟨tail, htail, hraw⟩ := ih p (acc ++ [p]) r h
        refine ⟨p :: tail, ?_, hb, hl, hraw⟩
        rw [htail, List.append_assoc]
        rfl

theorem rawRoute_isStrictRoute (m : List (Nat × Nat)) (base : Nat) : ∀ r current,
    rawRoute m base current r → isStrictRoute m base current r.dropLast := by
  intro r
  induction r with
  | nil =>
    intro current h
    exact Or.inl h
  | cons p rest ih =>
    intro current h
    obtain ⟨hb, hl, hraw⟩ := h
    cases rest with
    | nil =>
      have hp : p = base := hraw
      show isStrictRoute m base current []
      exact Or.inr ⟨hb, hp ▸ hl⟩
    | cons q rest2 =>
      have hpb : p ≠ base := hraw.1
      show isStrictRoute m base current (p :: (q :: rest2).dropLast)
      exact ⟨hb, hl, hpb, ih p hraw⟩

theorem loop_error_breaks (m : List (Nat × Nat)) (base : Nat) : ∀ fuel current acc,
    ancestryLoop m base fuel current acc = some (Except.error ()) →
    breaksBeforeBase m base current := by
  intro fuel
  induction fuel with
  | zero => intro current acc h; exact Option.noConfusion h
  | succ n ih =>
    intro current acc h
    by_cases hb : current = base
    · simp only [ancestryLoop, if_pos hb] at h
      exact absurd (Option.some.inj h) (fun hc => Except.noConfusion hc)
    · rcases hl : mapLookup m current with _ | p
      · refine ⟨0, ?_, current, rfl, hl⟩
        intro i q hi hq
        interval_cases i
        exact (Option.some.inj hq) ▸ hb
      · simp only [ancestryLoop, if_neg hb, hl] at h
        obtain ⟨k, hall, q, hit, hnone⟩ := ih p (acc ++ [p]) h
        refine ⟨k + 1, ?_, q, ?_, hnone⟩
        · intro i w hi hw
          cases i with
          | zero => exact (Option.some.inj hw) ▸ hb
          | succ i2 =>
            have hw2 : parentIter m i2 p = some w := by
              simp only [parentIter, hl] at hw
              exact hw
            exact hall i2 w (Nat.le_of_succ_le_succ hi) hw2
        · simp only [parentIter, hl]
          exact hit

theorem breaks_loop_error (m : List (Nat × Nat)) (base : Nat) : ∀ n current,
    (∀ i h, i ≤ n → parentIter m i current = some h → h ≠ base) →
    (∃ h, parentIter m n current = some h ∧ mapLookup m h = none) →
    ∀ acc, ∃ fuel, ancestryLoop m base fuel current acc = some (Except.error ()) := by
  intro n
  induction n with
  | zero =>
    intro current hall hbreak acc
    obtain ⟨h, hit, hnone⟩ := hbreak
    have hb : current = h := Option.some.inj hit
    subst hb
    have hcb : current ≠ base := hall 0 current (Nat.le_refl 0) rfl
    exact ⟨1, by simp [ancestryLoop, hcb, hnone]⟩
  | succ k ih =>
    intro current hall hbreak acc
    obtain ⟨h, hit, hnone⟩ := hbreak
    have hcb : current ≠ base := hall 0 current (Nat.zero_le _) rfl
    rcases hl : mapLookup m current with _ | p
    · exact ⟨1, by simp [ancestryLoop, hcb, hl]⟩
    · have hit2 : parentIter m k p = some h := by
        simp only [parentIter, hl] at hit
        exact hit
      have hall2 : ∀ i w, i ≤ k → parentIter m i p = some w → w ≠ base := by
        intro i w hi hw
        refine hall (i + 1) w (Nat.succ_le_succ hi) ?_
        simp only [parentIter, hl]
        exact hw
      obtain ⟨fuel, hf⟩ := ih p hall2 ⟨h, hit2, hnone⟩ (acc ++ [p])
      refine ⟨fuel + 1, ?_⟩
      simp only [ancestryLoop, if_neg hcb, hl]
      exact hf

/-- Claim C1: whenever the ancestry operation succeeds it returns exactly the
hashes strictly between `base` (exclusive) and `block` (exclusive) obtained
by repeatedly following the hash-to-parent map from `block`, ordered
nearest-to-`block` first; when `block = base` it succeeds with the empty
route; and it returns the not-descendant error exactly when the parent walk
from `block` hits a hash with no entry in the index before ever reaching
`base`. -/
theorem ancestry_route_spec (c : AncestryChain) (base block : Nat) :
    (∀ fuel route, Chain.ancestry c base block fuel = some (Except.ok route) →
      isStrictRoute c.ancestry base block route)
  ∧ (block = base → ∀ fuel, Chain.ancestry c base block (fuel + 1) = some (Except.ok []))
  ∧ ((∃ fuel, Chain.ancestry c base block fuel = some (Except.error ())) ↔
      breaksBeforeBase c.ancestry base block) := by
  refine ⟨?_, ?_, ?_, ?_⟩
  · intro fuel route h
    rcases hopt : ancestryLoop c.ancestry base fuel block [] with _ | r2
    · unfold Chain.ancestry at h
      rw [hopt] at h
      exact Option.noConfusion h
    · rcases r2 with e | raw
      · unfold Chain.ancestry at h
        rw [hopt] at h
        exact absurd (Option.some.inj h) (fun hc => Except.noConfusion hc)
      · unfold Chain.ancestry at h
        rw [hopt] at h
        have hroute : route = raw.dropLast :=
          (Except.ok.inj (Option.some.inj h)).symm
        obtain ⟨tail, htail, hraw⟩ := loop_ok_rawRoute c.ancestry base fuel block [] raw hopt
        rw [List.nil_append] at htail
        subst htail
        exact hroute ▸ rawRoute_isStrictRoute c.ancestry base raw block hraw
  · intro hb fuel
    unfold Chain.ancestry
    rw [show ancestryLoop c.ancestry base (fuel + 1) block [] = some (Except.ok []) from by
      simp [ancestryLoop, hb]]
    rfl
  · rintro ⟨fuel, h⟩
    rcases hopt : ancestryLoop c.ancestry base fuel block [] with _ | r2
    · unfold Chain.ancestry at h
      rw [hopt] at h
      exact Option.noConfusion h
    · rcases r2 with e | raw
      · exact loop_error_breaks c.ancestry base fuel block [] hopt
      · unfold Chain.ancestry at h
        rw [hopt] at h
        exact absurd (Option.some.inj h) (fun hc => Except.noConfusion hc)
  · rintro ⟨n, hall, h, hit, hnone⟩
    obtain ⟨fuel, hf⟩ := breaks_loop_error c.ancestry base n block hall ⟨h, hit, hnone⟩ []
    refine ⟨fuel, ?_⟩
    unfold Chain.ancestry
    rw [hf]
    rfl

theorem ancestry_route_spec_witness :
    isStrictRoute [(2, 1), (1, 0)] 0 2 [1] ∧ breaksBeforeBase [] 0 1 :=
  ⟨(ancestry_route_spec ⟨[(2, 1), (1, 0)]⟩ 0 2).1 5 [1] rfl,
   (ancestry_route_spec ⟨[]⟩ 0 1).2.2.mp ⟨1, rfl⟩⟩

/-! ### Fuel monotonicity and determinism (claim C7) -/

theorem ancestryLoop_mono (m : List (Nat × Nat)) (base k : Nat) : ∀ fuel current acc r,
    ancestryLoop m base fuel current acc = some r →
    ancestryLoop m base (fuel + k) current acc = some r := by
  intro fuel
  induction fuel with
  | zero => intro current acc r h; exact Option.noConfusion h
  | succ n ih =>
    intro current acc r h
    have harith : n + 1 + k = (n + k) + 1 := by omega
    rw [harith]
    by_cases hb : current = base
    · simp only [ancestryLoop, if_pos hb] at h ⊢
      exact h
    · rcases hl : mapLookup m current with _ | p
      · simp only [ancestryLoop, if_neg hb, hl] at h ⊢
        exact h
      · simp only [ancestryLoop, if_neg hb, hl] at h ⊢
        exact ih p (acc ++ [p]) r h

theorem ancestry_mono (c : AncestryChain) (base block fuel k : Nat)
    (r : Except Unit (List Nat)) (h : Chain.ancestry c base block fuel = some r) :
    Chain.ancestry c base block (fuel + k) = some r := by
  unfold Chain.ancestry at h ⊢
  rcases hopt : ancestryLoop c.ancestry base fuel block [] with _ | r2
  · rw [hopt] at h
    exact Option.noConfusion h
  · rw [hopt] at h
    rw [ancestryLoop_mono c.ancestry base k fuel block [] r2 hopt]
    exact h

theorem processPrecommits_mono (chk : Precommit → Nat → Nat → Nat → Nat → Bool)
    (chain : AncestryChain) (ct round setId fuel k : Nat) : ∀ votes visited r,
    processPrecommits chk chain ct round setId fuel votes visited = some r →
    processPrecommits chk chain ct round setId (fuel + k) votes visited = some r := by
  intro votes
  induction votes with
  | nil => intro visited r h; exact h
  | cons s rest ih =>
    intro visited r h
    by_cases hchk : chk s.precommit s.id s.signature round setId = true
    · by_cases hct : ct = s.precommit.target_hash
      · simp only [processPrecommits, if_pos hchk, if_pos hct] at h ⊢
        exact ih visited r h
      · rcases hanc : Chain.ancestry chain ct s.precommit.target_hash fuel with _ | r2
        · simp only [processPrecommits, if_pos hchk, if_neg hct, hanc] at h
          exact Option.noConfusion h
        · have hanc2 := ancestry_mono chain ct s.precommit.target_hash fuel k r2 hanc
          rcases r2 with e | route
          · simp only [processPrecommits, if_pos hchk, if_neg hct, hanc, hanc2] at h ⊢
            exact h
          · simp only [processPrecommits, if_pos hchk, if_neg hct, hanc, hanc2] at h ⊢
            exact ih (insert s.precommit.target_hash visited ∪ route.toFinset) r h
    · simp only [processPrecommits, if_neg hchk] at h ⊢
      exact h

theorem verify_justification_mono (decode : List Nat → Option GrandpaJustification)
    (vc : Commit → VoterSet → AncestryChain → Bool)
    (chk : Precommit → Nat → Nat → Nat → Nat → Bool)
    (ft : Nat × Nat) (setId : Nat) (voters : VoterSet) (raw : List Nat)
    (fuel k : Nat) (r : Except Error Unit)
    (h : verify_justification decode vc chk ft setId voters raw fuel = some r) :
    verify_justification decode vc chk ft setId voters raw (fuel + k) = some r := by
  unfold verify_justification at h ⊢
  rcases hd : decode raw with _ | j
  · rw [hd] at h
    exact h
  · rw [hd] at h
    change verifyDecoded vc chk ft setId voters fuel j = some r at h
    show verifyDecoded vc chk ft setId voters (fuel + k) j = some r
    unfold verifyDecoded at h ⊢
    by_cases htgt : (j.commit.target_hash, j.commit.target_number) ≠ ft
    · rw [if_pos htgt] at h ⊢
      exact h
    · rw [if_neg htgt] at h ⊢
      by_cases hvc : vc j.commit voters (AncestryChain.new j.votes_ancestries) = true
      · simp only [if_pos hvc] at h ⊢
        rcases hp : processPrecommits chk (AncestryChain.new j.votes_ancestries)
            j.commit.target_hash j.round setId fuel j.commit.precommits ∅ with _ | r2
        · rw [hp] at h
          exact Option.noConfusion h
        · have hp2 := processPrecommits_mono chk (AncestryChain.new j.votes_ancestries)
            j.commit.target_hash j.round setId fuel k j.commit.precommits ∅ r2 hp
          rw [hp] at h
          rw [hp2]
          exact h
      · simp only [if_neg hvc] at h ⊢
        exact h

/-- Claim C7: verification is deterministic.  Two runs of
`verify_justification` on identical inputs that both finish yield the same
verdict, whatever fuel bound each run was given. -/
theorem verify_justification_deterministic (decode : List Nat → Option GrandpaJustification)
    (vc : Commit → VoterSet → AncestryChain → Bool)
    (chk : Precommit → Nat → Nat → Nat → Nat → Bool)
    (ft : Nat × Nat) (setId : Nat) (voters : VoterSet) (raw : List Nat)
    (f1 f2 : Nat) (r1 r2 : Except Error Unit)
    (h1 : verify_justification decode vc chk ft setId voters raw f1 = some r1)
    (h2 : verify_justification decode vc chk ft setId voters raw f2 = some r2) :
    r1 = r2 := by
  have e1 := verify_justification_mono decode vc chk ft setId voters raw f1 f2 r1 h1
  have e2 := verify_justification_mono decode vc chk ft setId voters raw f2 f1 r2 h2
  rw [Nat.add_comm f2 f1] at e2
  rw [e1] at e2
  exact Option.some.inj e2

theorem verify_justification_deterministic_witness :
    (Except.error Error.JustificationDecode : Except Error Unit)
      = Except.error Error.JustificationDecode :=
  verify_justification_deterministic (fun _ => none) (fun _ _ _ => true)
    (fun _ _ _ _ _ => true) (0, 0) 0 [] [] 3 7
    (Except.error Error.JustificationDecode) (Except.error Error.JustificationDecode) rfl rfl

/-! ### Behaviour of the per-vote loop -/

theorem processPrecommits_all_skip (chk : Precommit → Nat → Nat → Nat → Nat → Bool)
    (chain : AncestryChain) (ct round setId fuel : Nat) : ∀ votes visited,
    (∀ s ∈ votes, chk s.precommit s.id s.signature round setId = true) →
    (∀ s ∈ votes, s.precommit.target_hash = ct) →
    processPrecommits chk chain ct round setId fuel votes visited
      = some (Except.ok visited) := by
  intro votes
  induction votes with
  | nil => intro visited hsig htg; rfl
  | cons s rest ih =>
    intro visited hsig htg
    have hchk := hsig s (List.mem_cons_self s rest)
    have hct : ct = s.precommit.target_hash := (htg s (List.mem_cons_self s rest)).symm
    simp only [processPrecommits, if_pos hchk, if_pos hct]
    exact ih visited (fun q hq => hsig q (List.mem_cons_of_mem s hq))
      (fun q hq => htg q (List.mem_cons_of_mem s hq))

theorem finset_union_shuffle (t : Nat) (v R U : Finset Nat) :
    insert t v ∪ R ∪ U = v ∪ (insert t R ∪ U) := by
  ext x
  simp only [Finset.mem_union, Finset.mem_insert]
  tauto

theorem processPrecommits_resolved (chk : Precommit → Nat → Nat → Nat → Nat → Bool)
    (chain : AncestryChain) (ct round setId fuel : Nat)
    (routes : SignedPrecommit → List Nat) : ∀ votes visited,
    (∀ s ∈ votes, chk s.precommit s.id s.signature round setId = true) →
    (∀ s ∈ votes, ct ≠ s.precommit.target_hash →
      Chain.ancestry chain ct s.precommit.target_hash fuel
        = some (Except.ok (routes s))) →
    processPrecommits chk chain ct round setId fuel votes visited
      = some (Except.ok (visited ∪ specUsedHashes ct routes votes)) := by
  intro votes
  induction votes with
  | nil =>
    intro visited hsig hroute
    simp [processPrecommits, specUsedHashes]
  | cons s rest ih =>
    intro visited hsig hroute
    have hchk := hsig s (List.mem_cons_self s rest)
    have hsig2 : ∀ q ∈ rest, chk q.precommit q.id q.signature round setId = true :=
      fun q hq => hsig q (List.mem_cons_of_mem s hq)
    have hroute2 : ∀ q ∈ rest, ct ≠ q.precommit.target_hash →
        Chain.ancestry chain ct q.precommit.target_hash fuel
          = some (Except.ok (routes q)) :=
      fun q hq => hroute q (List.mem_cons_of_mem s hq)
    by_cases hct : ct = s.precommit.target_hash
    · simp only [processPrecommits, if_pos hchk, if_pos hct]
      rw [ih visited hsig2 hroute2]
      simp only [specUsedHashes, if_pos hct]
    · have hanc := hroute s (List.mem_cons_self s rest) hct
      simp only [processPrecommits, if_pos hchk, if_neg hct, hanc]
      rw [ih (insert s.precommit.target_hash visited ∪ (routes s).toFinset) hsig2 hroute2]
      simp only [specUsedHashes, if_neg hct]
      rw [finset_union_shuffle]

theorem processPrecommits_error_kinds (chk : Precommit → Nat → Nat → Nat → Nat → Bool)
    (chain : AncestryChain) (ct round setId fuel : Nat) : ∀ votes visited e,
    processPrecommits chk chain ct round setId fuel votes visited
      = some (Except.error e) →
    e = Error.InvalidAuthoritySignature ∨ e = Error.InvalidPrecommitAncestryProof := by
  intro votes
  induction votes with
  | nil =>
    intro visited e h
    simp only [processPrecommits, Option.some.injEq] at h
    exact absurd h (fun hc => Except.noConfusion hc)
  | cons s rest ih =>
    intro visited e h
    by_cases hchk : chk s.precommit s.id s.signature round setId = true
    · by_cases hct : ct = s.precommit.target_hash
      · simp only [processPrecommits, if_pos hchk, if_pos hct] at h
        exact ih visited e h
      · rcases hanc : Chain.ancestry chain ct s.precommit.target_hash fuel with _ | r2
        · simp only [processPrecommits, if_pos hchk, if_neg hct, hanc] at h
          exact Option.noConfusion h
        · rcases r2 with e2 | route
          · simp only [processPrecommits, if_pos hchk, if_neg hct, hanc,
              Option.some.injEq] at h
            exact Or.inr (Except.error.inj h).symm
          · simp only [processPrecommits, if_pos hchk, if_neg hct, hanc] at h
            exact ih (insert s.precommit.target_hash visited ∪ route.toFinset) e h
    · simp only [processPrecommits, if_neg hchk, Option.some.injEq] at h
      exact Or.inl (Except.error.inj h).symm

theorem processPrecommits_first_bad_sig (chk : Precommit → Nat → Nat → Nat → Nat → Bool)
    (chain : AncestryChain) (ct round setId fuel : Nat)
    (bad : SignedPrecommit) (rest : List SignedPrecommit)
    (hbad : chk bad.precommit bad.id bad.signature round setId = false) : ∀ pre visited,
    (∀ s ∈ pre, chk s.precommit s.id s.signature round setId = true) →
    (∀ s ∈ pre, ct ≠ s.precommit.target_hash →
      ∃ route, Chain.ancestry chain ct s.precommit.target_hash fuel
        = some (Except.ok route)) →
    processPrecommits chk chain ct round setId fuel (pre ++ bad :: rest) visited
      = some (Except.error Error.InvalidAuthoritySignature) := by
  intro pre
  induction pre with
  | nil =>
    intro visited hsig hroute
    have hnb : ¬ chk bad.precommit bad.id bad.signature round setId = true := by
      rw [hbad]
      exact Bool.false_ne_true
    simp only [List.nil_append, processPrecommits, if_neg hnb]
  | cons s pre2 ih =>
    intro visited hsig hroute
    have hchk := hsig s (List.mem_cons_self s pre2)
    have hsig2 : ∀ q ∈ pre2, chk q.precommit q.id q.signature round setId = true :=
      fun q hq => hsig q (List.mem_cons_of_mem s hq)
    have hroute2 : ∀ q ∈ pre2, ct ≠ q.precommit.target_hash →
        ∃ route, Chain.ancestry chain ct q.precommit.target_hash fuel
          = some (Except.ok route) :=
      fun q hq => hroute q (List.mem_cons_of_mem s hq)
    show processPrecommits chk chain ct round setId fuel (s :: (pre2 ++ bad :: rest)) visited
      = some (Except.error Error.InvalidAuthoritySignature)
    by_cases hct : ct = s.precommit.target_hash
    · simp only [processPrecommits, if_pos hchk, if_pos hct]
      exact ih visited hsig2 hroute2
    · obtain ⟨route, hanc⟩ := hroute s (List.mem_cons_self s pre2) hct
      simp only [processPrecommits, if_pos hchk, if_neg hct, hanc]
      exact ih (insert s.precommit.target_hash visited ∪ route.toFinset) hsig2 hroute2

/-! ### Error kinds reachable after a successful decode -/

theorem verifyDecoded_error_kinds (vc : Commit → VoterSet → AncestryChain → Bool)
    (chk : Precommit → Nat → Nat → Nat → Nat → Bool)
    (ft : Nat × Nat) (setId : Nat) (voters : VoterSet) (fuel : Nat)
    (j : GrandpaJustification) (e : Error)
    (h : verifyDecoded vc chk ft setId voters fuel j = some (Except.error e)) :
    e = Error.InvalidJustificationTarget ∨ e = Error.InvalidJustificationCommit ∨
    e = Error.InvalidAuthoritySignature ∨ e = Error.InvalidPrecommitAncestryProof ∨
    e = Error.InvalidPrecommitAncestries := by
  unfold verifyDecoded at h
  by_cases htgt : (j.commit.target_hash, j.commit.target_number) ≠ ft
  · rw [if_pos htgt] at h
    exact Or.inl (Except.error.inj (Option.some.inj h)).symm
  · rw [if_neg htgt] at h
    by_cases hvc : vc j.commit voters (AncestryChain.new j.votes_ancestries) = true
    · simp only [if_pos hvc] at h
      rcases hp : processPrecommits chk (AncestryChain.new j.votes_ancestries)
          j.commit.target_hash j.round setId fuel j.commit.precommits ∅ with _ | r2
      · rw [hp] at h
        exact Option.noConfusion h
      · rcases r2 with e2 | visited
        · rw [hp] at h
          have he : e2 = e := Except.error.inj (Option.some.inj h)
          subst he
          rcases processPrecommits_error_kinds chk (AncestryChain.new j.votes_ancestries)
              j.commit.target_hash j.round setId fuel j.commit.precommits ∅ e2 hp with h1 | h1
          · exact Or.inr (Or.inr (Or.inl h1))
          · exact Or.inr (Or.inr (Or.inr (Or.inl h1)))
        · rw [hp] at h
          change (if visited ≠ (j.votes_ancestries.map Header.hash).toFinset then
              some (Except.error Error.InvalidPrecommitAncestries)
            else some (Except.ok ())) = some (Except.error e) at h
          by_cases hfin : visited ≠ (j.votes_ancestries.map Header.hash).toFinset
          · rw [if_pos hfin] at h
            exact Or.inr (Or.inr (Or.inr (Or.inr
              (Except.error.inj (Option.some.inj h)).symm)))
          · rw [if_neg hfin] at h
            exact absurd (Option.some.inj h) (fun hc => Except.noConfusion hc)
    · simp only [if_neg hvc] at h
      exact Or.inr (Or.inl (Except.error.inj (Option.some.inj h)).symm)

/-! ### Decode phase (claim C5) -/

theorem verify_prefix_eq_verify
    (pdecode : List Nat → Option (GrandpaJustification × List Nat))
    (vc : Commit → VoterSet → AncestryChain → Bool)
    (chk : Precommit → Nat → Nat → Nat → Nat → Bool)
    (ft : Nat × Nat) (setId : Nat) (voters : VoterSet) (raw : List Nat) (fuel : Nat) :
    verify_justification_prefix pdecode vc chk ft setId voters raw fuel
      = verify_justification (fun bytes => (pdecode bytes).map Prod.fst)
          vc chk ft setId voters raw fuel := by
  unfold verify_justification_prefix verify_justification
  show (match pdecode raw with
      | none => some (Except.error Error.JustificationDecode)
      | some jl => verifyDecoded vc chk ft setId voters fuel jl.1)
    = (match Option.map Prod.fst (pdecode raw) with
      | none => some (Except.error Error.JustificationDecode)
      | some j => verifyDecoded vc chk ft setId voters fuel j)
  cases hd : pdecode raw with
  | none => rfl
  | some jl => rfl

/-- Claim C5 counterexample: the decode call at line 59 is SCALE prefix
decoding, which ignores trailing bytes (`Decode::decode`, not the
all-consuming `DecodeAll` variant).  Under a prefix codec for which `[0]` is
a complete encoded justification (decoded with empty remainder), the input
`[0, 9]` — that complete encoding followed by a trailing byte — is not
rejected with the decode error: it decodes to the same justification with
the byte `9` left over, and verification proceeds and succeeds. -/
theorem verify_trailing_bytes_cex :
    (fun bytes : List Nat =>
        match bytes with
        | 0 :: rest => some ((⟨0, ⟨5, 5, []⟩, []⟩ : GrandpaJustification), rest)
        | _ => none) [0]
      = some ((⟨0, ⟨5, 5, []⟩, []⟩ : GrandpaJustification), ([] : List Nat)) ∧
    (fun bytes : List Nat =>
        match bytes with
        | 0 :: rest => some ((⟨0, ⟨5, 5, []⟩, []⟩ : GrandpaJustification), rest)
        | _ => none) [0, 9]
      = some ((⟨0, ⟨5, 5, []⟩, []⟩ : GrandpaJustification), [9]) ∧
    verify_justification_prefix
      (fun bytes =>
        match bytes with
        | 0 :: rest => some (⟨0, ⟨5, 5, []⟩, []⟩, rest)
        | _ => none)
      (fun _ _ _ => true) (fun _ _ _ _ _ => true) (5, 5) 0 [] [0, 9] 1
      = some (Except.ok ()) :=
  ⟨rfl, rfl, rfl⟩

/-- Claim C5, amended: no partially decoded justification is ever used, and
`verify` returns the decode error exactly when the codec fails to read a
justification from the front of the raw bytes (truncated input, invalid
framing, the empty sequence).  Trailing bytes beyond a complete encoded
justification, however, do not cause the decode error: on a successful
prefix decode the verdict depends only on the decoded justification and the
unconsumed remainder is ignored. -/
theorem verify_prefix_decode_exact
    (pdecode : List Nat → Option (GrandpaJustification × List Nat))
    (vc : Commit → VoterSet → AncestryChain → Bool)
    (chk : Precommit → Nat → Nat → Nat → Nat → Bool)
    (ft : Nat × Nat) (setId : Nat) (voters : VoterSet) (fuel : Nat) :
    (∀ raw, verify_justification_prefix pdecode vc chk ft setId voters raw fuel
        = some (Except.error Error.JustificationDecode) ↔ pdecode raw = none)
  ∧ (∀ raw j leftover, pdecode raw = some (j, leftover) →
      verify_justification_prefix pdecode vc chk ft setId voters raw fuel
        = verifyDecoded vc chk ft setId voters fuel j) := by
  constructor
  · intro raw
    constructor
    · intro h
      rcases hd : pdecode raw with _ | jl
      · rfl
      · unfold verify_justification_prefix at h
        rw [hd] at h
        change verifyDecoded vc chk ft setId voters fuel jl.1
          = some (Except.error Error.JustificationDecode) at h
        rcases verifyDecoded_error_kinds vc chk ft setId voters fuel jl.1
            Error.JustificationDecode h with h1 | h1 | h1 | h1 | h1 <;>
          exact Error.noConfusion h1
    · intro h
      unfold verify_justification_prefix
      rw [h]
  · intro raw j leftover h
    unfold verify_justification_prefix
    rw [h]

theorem verify_prefix_decode_exact_witness :
    verify_justification_prefix
      (fun bytes =>
        match bytes with
        | 0 :: rest => some ((⟨0, ⟨5, 5, []⟩, []⟩ : GrandpaJustification), rest)
        | _ => none)
      (fun _ _ _ => true) (fun _ _ _ _ _ => true) (5, 5) 0 [] [1] 1
      = some (Except.error Error.JustificationDecode) ∧
    verify_justification_prefix
      (fun bytes =>
        match bytes with
        | 0 :: rest => some ((⟨0, ⟨5, 5, []⟩, []⟩ : GrandpaJustification), rest)
        | _ => none)
      (fun _ _ _ => true) (fun _ _ _ _ _ => true) (5, 5) 0 [] [0, 9] 1
      = verifyDecoded (fun _ _ _ => true) (fun _ _ _ _ _ => true) (5, 5) 0 [] 1
          ⟨0, ⟨5, 5, []⟩, []⟩ :=
  ⟨((verify_prefix_decode_exact
      (fun bytes =>
        match bytes with
        | 0 :: rest => some ((⟨0, ⟨5, 5, []⟩, []⟩ : GrandpaJustification), rest)
        | _ => none)
      (fun _ _ _ => true) (fun _ _ _ _ _ => true) (5, 5) 0 [] 1).1 [1]).mpr rfl,
   (verify_prefix_decode_exact
      (fun bytes =>
        match bytes with
        | 0 :: rest => some ((⟨0, ⟨5, 5, []⟩, []⟩ : GrandpaJustification), rest)
        | _ => none)
      (fun _ _ _ => true) (fun _ _ _ _ _ => true) (5, 5) 0 [] 1).2 [0, 9]
      ⟨0, ⟨5, 5, []⟩, []⟩ [9] rfl⟩

/-! ### Target check (claim C6) -/

theorem verifyDecoded_target_eq_not_invalid_target
    (vc : Commit → VoterSet → AncestryChain → Bool)
    (chk : Precommit → Nat → Nat → Nat → Nat → Bool)
    (ft : Nat × Nat) (setId : Nat) (voters : VoterSet) (fuel : Nat)
    (j : GrandpaJustification)
    (heq : (j.commit.target_hash, j.commit.target_number) = ft) :
    verifyDecoded vc chk ft setId voters fuel j
      ≠ some (Except.error Error.InvalidJustificationTarget) := by
  intro h
  rcases verifyDecoded_error_kinds vc chk ft setId voters fuel j
      Error.InvalidJustificationTarget h with h1 | h1 | h1 | h1 | h1
  · unfold verifyDecoded at h
    rw [if_neg (not_not_intro heq)] at h
    by_cases hvc : vc j.commit voters (AncestryChain.new j.votes_ancestries) = true
    · simp only [if_pos hvc] at h
      rcases hp : processPrecommits chk (AncestryChain.new j.votes_ancestries)
          j.commit.target_hash j.round setId fuel j.commit.precommits ∅ with _ | r2
      · rw [hp] at h
        exact Option.noConfusion h
      · rcases r2 with e2 | visited
        · rw [hp] at h
          have he : e2 = Error.InvalidJustificationTarget :=
            Except.error.inj (Option.some.inj h)
          rcases processPrecommits_error_kinds chk (AncestryChain.new j.votes_ancestries)
              j.commit.target_hash j.round setId fuel j.commit.precommits ∅ e2 hp with h2 | h2 <;>
            (rw [he] at h2; exact Error.noConfusion h2)
        · rw [hp] at h
          change (if visited ≠ (j.votes_ancestries.map Header.hash).toFinset then
              some (Except.error Error.InvalidPrecommitAncestries)
            else some (Except.ok ())) = some (Except.error Error.InvalidJustificationTarget) at h
          by_cases hfin : visited ≠ (j.votes_ancestries.map Header.hash).toFinset
          · rw [if_pos hfin] at h
            exact Error.noConfusion (Except.error.inj (Option.some.inj h))
          · rw [if_neg hfin] at h
            exact absurd (Option.some.inj h) (fun hc => Except.noConfusion hc)
    · simp only [if_neg hvc] at h
      exact Error.noConfusion (Except.error.inj (Option.some.inj h))
  · exact Error.noConfusion h1
  · exact Error.noConfusion h1
  · exact Error.noConfusion h1
  · exact Error.noConfusion h1

/-- Claim C6: for every successfully decoded justification, the target check
decides first — when the decoded commit's (target hash, target number) pair
differs from the caller-supplied expected pair the verdict is
`InvalidJustificationTarget` whatever the commit validator and the signature
checker are (no cryptographic work can influence it) and whatever the fuel;
when the pair matches, that error is never returned and verification
proceeds. -/
theorem verify_target_check (decode : List Nat → Option GrandpaJustification)
    (setId : Nat) (voters : VoterSet) (raw : List Nat) (ft : Nat × Nat)
    (j : GrandpaJustification) (hdec : decode raw = some j) :
    ((j.commit.target_hash, j.commit.target_number) ≠ ft →
      ∀ vc chk fuel, verify_justification decode vc chk ft setId voters raw fuel
        = some (Except.error Error.InvalidJustificationTarget))
  ∧ ((j.commit.target_hash, j.commit.target_number) = ft →
      ∀ vc chk fuel, verify_justification decode vc chk ft setId voters raw fuel
        ≠ some (Except.error Error.InvalidJustificationTarget)) := by
  constructor
  · intro hne vc chk fuel
    unfold verify_justification
    rw [hdec]
    show verifyDecoded vc chk ft setId voters fuel j = _
    unfold verifyDecoded
    rw [if_pos hne]
  · intro heq vc chk fuel h
    unfold verify_justification at h
    rw [hdec] at h
    change verifyDecoded vc chk ft setId voters fuel j
      = some (Except.error Error.InvalidJustificationTarget) at h
    exact verifyDecoded_target_eq_not_invalid_target vc chk ft setId voters fuel j heq h

theorem verify_target_check_witness :
    verify_justification (fun _ => some ⟨0, ⟨5, 5, []⟩, []⟩) (fun _ _ _ => true)
      (fun _ _ _ _ _ => true) (6, 6) 0 [] [] 1
      = some (Except.error Error.InvalidJustificationTarget) ∧
    verify_justification (fun _ => some ⟨0, ⟨5, 5, []⟩, []⟩) (fun _ _ _ => true)
      (fun _ _ _ _ _ => true) (5, 5) 0 [] [] 1
      ≠ some (Except.error Error.InvalidJustificationTarget) :=
  ⟨(verify_target_check (fun _ => some ⟨0, ⟨5, 5, []⟩, []⟩) 0 [] [] (6, 6)
      ⟨0, ⟨5, 5, []⟩, []⟩ rfl).1 (by decide) (fun _ _ _ => true) (fun _ _ _ _ _ => true) 1,
   (verify_target_check (fun _ => some ⟨0, ⟨5, 5, []⟩, []⟩) 0 [] [] (5, 5)
      ⟨0, ⟨5, 5, []⟩, []⟩ rfl).2 rfl (fun _ _ _ => true) (fun _ _ _ _ _ => true) 1⟩

/-! ### Ancestry-consistency set comparison (claims C2 and C10) -/

/-- Claim C2: for a decoded justification that passes the target, commit and
signature checks and whose differing votes all have resolvable ancestry
routes, the verdict is success exactly when the used-hash set — each
differing vote's own target hash together with every hash on its resolved
route, votes at the commit's target contributing nothing — equals the set of
hashes of the headers in `votes_ancestries`, and the verdict is the
`InvalidPrecommitAncestries` error exactly when the two sets differ in either
direction. -/
theorem verify_used_hashes_exact (decode : List Nat → Option GrandpaJustification)
    (vc : Commit → VoterSet → AncestryChain → Bool)
    (chk : Precommit → Nat → Nat → Nat → Nat → Bool)
    (ft : Nat × Nat) (setId : Nat) (voters : VoterSet) (raw : List Nat) (fuel : Nat)
    (j : GrandpaJustification) (routes : SignedPrecommit → List Nat)
    (hdec : decode raw = some j)
    (htgt : (j.commit.target_hash, j.commit.target_number) = ft)
    (hvc : vc j.commit voters (AncestryChain.new j.votes_ancestries) = true)
    (hsig : ∀ s ∈ j.commit.precommits,
      chk s.precommit s.id s.signature j.round setId = true)
    (hroute : ∀ s ∈ j.commit.precommits, j.commit.target_hash ≠ s.precommit.target_hash →
      Chain.ancestry (AncestryChain.new j.votes_ancestries) j.commit.target_hash
        s.precommit.target_hash fuel = some (Except.ok (routes s))) :
    (verify_justification decode vc chk ft setId voters raw fuel = some (Except.ok ())
      ↔ specUsedHashes j.commit.target_hash routes j.commit.precommits
          = (j.votes_ancestries.map Header.hash).toFinset)
  ∧ (verify_justification decode vc chk ft setId voters raw fuel
        = some (Except.error Error.InvalidPrecommitAncestries)
      ↔ specUsedHashes j.commit.target_hash routes j.commit.precommits
          ≠ (j.votes_ancestries.map Header.hash).toFinset) := by
  have hpp : processPrecommits chk (AncestryChain.new j.votes_ancestries)
      j.commit.target_hash j.round setId fuel j.commit.precommits ∅
      = some (Except.ok (specUsedHashes j.commit.target_hash routes j.commit.precommits)) := by
    rw [processPrecommits_resolved chk (AncestryChain.new j.votes_ancestries)
      j.commit.target_hash j.round setId fuel routes j.commit.precommits ∅ hsig hroute,
      Finset.empty_union]
  have hrun : verify_justification decode vc chk ft setId voters raw fuel
      = (if specUsedHashes j.commit.target_hash routes j.commit.precommits
            ≠ (j.votes_ancestries.map Header.hash).toFinset
         then some (Except.error Error.InvalidPrecommitAncestries)
         else some (Except.ok ())) := by
    unfold verify_justification
    rw [hdec]
    show verifyDecoded vc chk ft setId voters fuel j = _
    unfold verifyDecoded
    rw [if_neg (not_not_intro htgt)]
    simp only [if_pos hvc]
    rw [hpp]
  by_cases hset : specUsedHashes j.commit.target_hash routes j.commit.precommits
      = (j.votes_ancestries.map Header.hash).toFinset
  · rw [hrun, if_neg (not_not_intro hset)]
    refine ⟨⟨fun _ => hset, fun _ => rfl⟩, ?_, ?_⟩
    · intro h
      exact absurd (Option.some.inj h) (fun hc => Except.noConfusion hc)
    · intro h
      exact absurd hset h
  · rw [hrun, if_pos hset]
    refine ⟨⟨?_, ?_⟩, fun _ => hset, fun _ => rfl⟩
    · intro h
      exact absurd (Option.some.inj h) (fun hc => Except.noConfusion hc)
    · intro h
      exact absurd h hset

theorem verify_used_hashes_exact_witness :
    verify_justification (fun _ => some ⟨0, ⟨1, 5, [⟨⟨2, 6⟩, 1, 0⟩]⟩, [⟨2, 1, 6⟩]⟩)
      (fun _ _ _ => true) (fun _ _ _ _ _ => true) (1, 5) 0 [] [] 3
      = some (Except.ok ()) :=
  (verify_used_hashes_exact (fun _ => some ⟨0, ⟨1, 5, [⟨⟨2, 6⟩, 1, 0⟩]⟩, [⟨2, 1, 6⟩]⟩)
    (fun _ _ _ => true) (fun _ _ _ _ _ => true) (1, 5) 0 [] [] 3
    ⟨0, ⟨1, 5, [⟨⟨2, 6⟩, 1, 0⟩]⟩, [⟨2, 1, 6⟩]⟩ (fun _ => []) rfl rfl rfl
    (fun s hs => rfl)
    (by
      intro s hs hne
      rw [List.mem_singleton] at hs
      subst hs
      rfl)).1.mpr (by decide)

/-- Claim C10: for a decoded justification that passes the target, commit and
signature checks and in which every vote's target equals the commit's target,
no vote contributes to the used-hash set, so verification succeeds exactly
when `votes_ancestries` is empty, and a non-empty `votes_ancestries` yields
the `InvalidPrecommitAncestries` error. -/
theorem verify_all_votes_at_target (decode : List Nat → Option GrandpaJustification)
    (vc : Commit → VoterSet → AncestryChain → Bool)
    (chk : Precommit → Nat → Nat → Nat → Nat → Bool)
    (ft : Nat × Nat) (setId : Nat) (voters : VoterSet) (raw : List Nat) (fuel : Nat)
    (j : GrandpaJustification)
    (hdec : decode raw = some j)
    (htgt : (j.commit.target_hash, j.commit.target_number) = ft)
    (hvc : vc j.commit voters (AncestryChain.new j.votes_ancestries) = true)
    (hsig : ∀ s ∈ j.commit.precommits,
      chk s.precommit s.id s.signature j.round setId = true)
    (hall : ∀ s ∈ j.commit.precommits,
      s.precommit.target_hash = j.commit.target_hash) :
    (verify_justification decode vc chk ft setId voters raw fuel = some (Except.ok ())
      ↔ j.votes_ancestries = [])
  ∧ (j.votes_ancestries ≠ [] → verify_justification decode vc chk ft setId voters raw fuel
      = some (Except.error Error.InvalidPrecommitAncestries)) := by
  have hpp := processPrecommits_all_skip chk (AncestryChain.new j.votes_ancestries)
    j.commit.target_hash j.round setId fuel j.commit.precommits ∅ hsig hall
  have hrun : verify_justification decode vc chk ft setId voters raw fuel
      = (if (∅ : Finset Nat) ≠ (j.votes_ancestries.map Header.hash).toFinset
         then some (Except.error Error.InvalidPrecommitAncestries)
         else some (Except.ok ())) := by
    unfold verify_justification
    rw [hdec]
    show verifyDecoded vc chk ft setId voters fuel j = _
    unfold verifyDecoded
    rw [if_neg (not_not_intro htgt)]
    simp only [if_pos hvc]
    rw [hpp]
  have hempty : (∅ : Finset Nat) = (j.votes_ancestries.map Header.hash).toFinset
      ↔ j.votes_ancestries = [] := by
    cases hl : j.votes_ancestries with
    | nil => simp
    | cons a l =>
      simp only [List.map_cons, List.toFinset_cons]
      constructor
      · intro h
        exact absurd h.symm (Finset.insert_ne_empty _ _)
      · intro h
        exact List.noConfusion h
  by_cases hemp : j.votes_ancestries = []
  · have hfin : (∅ : Finset Nat) = (j.votes_ancestries.map Header.hash).toFinset :=
      hempty.mpr hemp
    rw [hrun, if_neg (not_not_intro hfin)]
    exact ⟨⟨fun _ => hemp, fun _ => rfl⟩, fun h => absurd hemp h⟩
  · have hfin : (∅ : Finset Nat) ≠ (j.votes_ancestries.map Header.hash).toFinset :=
      fun h => hemp (hempty.mp h)
    rw [hrun, if_pos hfin]
    refine ⟨⟨?_, fun h => absurd h hemp⟩, fun _ => rfl⟩
    intro h
    exact absurd (Option.some.inj h) (fun hc => Except.noConfusion hc)

theorem verify_all_votes_at_target_witness :
    verify_justification (fun _ => some ⟨0, ⟨7, 1, [⟨⟨7, 1⟩, 1, 0⟩]⟩, []⟩)
      (fun _ _ _ => true) (fun _ _ _ _ _ => true) (7, 1) 0 [] [] 1
      = some (Except.ok ()) :=
  (verify_all_votes_at_target (fun _ => some ⟨0, ⟨7, 1, [⟨⟨7, 1⟩, 1, 0⟩]⟩, []⟩)
    (fun _ _ _ => true) (fun _ _ _ _ _ => true) (7, 1) 0 [] [] 1
    ⟨0, ⟨7, 1, [⟨⟨7, 1⟩, 1, 0⟩]⟩, []⟩ rfl rfl rfl
    (fun s hs => rfl)
    (by
      intro s hs
      rw [List.mem_singleton] at hs
      subst hs
      rfl)).1.mpr rfl

/-! ### Order of signature checking and ancestry resolution (claim C4) -/

/-- Claim C4 counterexample: target and commit checks pass; the first vote's
signature is valid but its ancestry route cannot be resolved, while the
second vote's signature is invalid (the checker accepts exactly signature 1
and the second vote carries signature 0).  The verdict is
`InvalidPrecommitAncestryProof`, not `InvalidAuthoritySignature`: signature
checking is interleaved with ancestry resolution vote by vote, it is not a
phase that completes before any ancestry work. -/
theorem verify_sig_phase_cex :
    (fun (_ : Precommit) (_ sig _ _ : Nat) => sig == 1)
      (⟨10, 1⟩ : Precommit) 1 0 0 0 = false ∧
    verify_justification
      (fun _ => some ⟨0, ⟨10, 1, [⟨⟨20, 2⟩, 1, 0⟩, ⟨⟨10, 1⟩, 0, 1⟩]⟩, []⟩)
      (fun _ _ _ => true) (fun _ _ sig _ _ => sig == 1) (10, 1) 0 [] [] 5
      = some (Except.error Error.InvalidPrecommitAncestryProof) := by
  constructor
  · rfl
  · rfl

/-- Claim C4, amended: votes are processed in one pass in list order, and for
each vote the signature is checked before that same vote's ancestry route is
resolved.  Consequently `verify_justification` returns
`InvalidAuthoritySignature` at the first vote whose signature fails, without
examining later votes, provided every earlier vote either targets the
commit's target or has a resolvable ancestry route; signature checking is
not a phase that completes before all ancestry-consistency work. -/
theorem verify_invalid_sig_first (decode : List Nat → Option GrandpaJustification)
    (vc : Commit → VoterSet → AncestryChain → Bool)
    (chk : Precommit → Nat → Nat → Nat → Nat → Bool)
    (ft : Nat × Nat) (setId : Nat) (voters : VoterSet) (raw : List Nat) (fuel : Nat)
    (j : GrandpaJustification) (pre rest : List SignedPrecommit) (bad : SignedPrecommit)
    (hdec : decode raw = some j)
    (hpc : j.commit.precommits = pre ++ bad :: rest)
    (htgt : (j.commit.target_hash, j.commit.target_number) = ft)
    (hvc : vc j.commit voters (AncestryChain.new j.votes_ancestries) = true)
    (hsig : ∀ s ∈ pre, chk s.precommit s.id s.signature j.round setId = true)
    (hroute : ∀ s ∈ pre, j.commit.target_hash ≠ s.precommit.target_hash →
      ∃ route, Chain.ancestry (AncestryChain.new j.votes_ancestries)
        j.commit.target_hash s.precommit.target_hash fuel = some (Except.ok route))
    (hbad : chk bad.precommit bad.id bad.signature j.round setId = false) :
    verify_justification decode vc chk ft setId voters raw fuel
      = some (Except.error Error.InvalidAuthoritySignature) := by
  unfold verify_justification
  rw [hdec]
  show verifyDecoded vc chk ft setId voters fuel j = _
  unfold verifyDecoded
  rw [if_neg (not_not_intro htgt)]
  simp only [if_pos hvc]
  rw [hpc, processPrecommits_first_bad_sig chk (AncestryChain.new j.votes_ancestries)
    j.commit.target_hash j.round setId fuel bad rest hbad pre ∅ hsig hroute]

theorem verify_invalid_sig_first_witness :
    verify_justification
      (fun _ => some ⟨0, ⟨10, 1, [⟨⟨30, 3⟩, 1, 0⟩, ⟨⟨10, 1⟩, 0, 1⟩]⟩, [⟨30, 10, 3⟩]⟩)
      (fun _ _ _ => true) (fun _ _ sig _ _ => sig == 1) (10, 1) 0 [] [] 3
      = some (Except.error Error.InvalidAuthoritySignature) :=
  verify_invalid_sig_first
    (fun _ => some ⟨0, ⟨10, 1, [⟨⟨30, 3⟩, 1, 0⟩, ⟨⟨10, 1⟩, 0, 1⟩]⟩, [⟨30, 10, 3⟩]⟩)
    (fun _ _ _ => true) (fun _ _ sig _ _ => sig == 1) (10, 1) 0 [] [] 3
    ⟨0, ⟨10, 1, [⟨⟨30, 3⟩, 1, 0⟩, ⟨⟨10, 1⟩, 0, 1⟩]⟩, [⟨30, 10, 3⟩]⟩
    [⟨⟨30, 3⟩, 1, 0⟩] [] ⟨⟨10, 1⟩, 0, 1⟩ rfl rfl rfl rfl
    (by
      intro s hs
      rw [List.mem_singleton] at hs
      subst hs
      rfl)
    (by
      intro s hs hne
      rw [List.mem_singleton] at hs
      subst hs
      exact ⟨[], rfl⟩)
    rfl

/-! ### The best-candidate-containing capability (claim C9) -/

/-- Claim C9: the verification verdict never depends on the
best-candidate-containing operation of the capability interface.  Under the
spec contract that the commit validator does not consult that operation
during verification, `verifyWithChainCap` returns the identical verdict for
every two implementations of it, so the fatal `unreachable!` branch standing
behind it in the source can never be the cause of a failure on any input. -/
theorem verify_bcc_never_consulted (decode : List Nat → Option GrandpaJustification)
    (vc : Commit → VoterSet → (Nat → Nat → Nat → Option (Except Unit (List Nat)))
      → (Nat → Option (Nat × Nat)) → Bool)
    (chk : Precommit → Nat → Nat → Nat → Nat → Bool)
    (ft : Nat × Nat) (setId : Nat) (voters : VoterSet) (raw : List Nat) (fuel : Nat)
    (hvc : ∀ c v a b1 b2, vc c v a b1 = vc c v a b2) :
    ∀ bcc1 bcc2, verifyWithChainCap decode vc bcc1 chk ft setId voters raw fuel
      = verifyWithChainCap decode vc bcc2 chk ft setId voters raw fuel := by
  intro bcc1 bcc2
  unfold verifyWithChainCap
  cases hd : decode raw with
  | none => rfl
  | some j =>
    have he : vc j.commit voters
        (fun base block f =>
          Chain.ancestry (AncestryChain.new j.votes_ancestries) base block f) bcc1
      = vc j.commit voters
        (fun base block f =>
          Chain.ancestry (AncestryChain.new j.votes_ancestries) base block f) bcc2 :=
      hvc j.commit voters _ bcc1 bcc2
    simp only [he]

theorem verify_bcc_never_consulted_witness :
    verifyWithChainCap (fun _ => none) (fun _ _ _ _ => true) (fun _ => none)
      (fun _ _ _ _ _ => true) (0, 0) 0 [] [] 1
    = verifyWithChainCap (fun _ => none) (fun _ _ _ _ => true) (fun n => some (n, n))
      (fun _ _ _ _ _ => true) (0, 0) 0 [] [] 1 :=
  verify_bcc_never_consulted (fun _ => none) (fun _ _ _ _ => true) (fun _ _ _ _ _ => true)
    (0, 0) 0 [] [] 1 (fun _ _ _ _ _ => rfl) (fun _ => none) (fun n => some (n, n))
